import Mathlib

/-!
Shallow embedding of `src/SparseMatrix.py` (class `CompressedMatrix`).

The Python class stores a sparse matrix as a dict `matrix_data` mapping
string keys of the form `f"{row},{col}"` to integer values, together with
integer dimensions `total_rows`, `total_cols`.  Strings are modelled as
`List Char`; the dict is modelled as an association list with Python dict
semantics (insert overwrites in place, fresh keys append at the end,
iteration follows list order).  Python's unbounded `int` is `Int`.
Methods that `raise ValueError` are modelled in `Except`.
-/

/-- The character for a decimal digit `d < 10`, as Python's `str` renders it. -/
def digitChar (d : Nat) : Char := Char.ofNat (48 + d)

/-- Decimal digits of `n`, least significant first, with explicit fuel so the
kernel can evaluate it.  `natDigitsRevAux fuel n` is meaningful for `n ≤ fuel`. -/
def natDigitsRevAux : Nat → Nat → List Nat
  | 0, _ => []
  | _ + 1, 0 => []
  | fuel + 1, n + 1 => ((n + 1) % 10) :: natDigitsRevAux fuel ((n + 1) / 10)

/-- Decimal digits of `n`, least significant first (empty for `0`). -/
def natDigitsRev (n : Nat) : List Nat := natDigitsRevAux n n

/-- Python's `str` of a non-negative integer, as a character list. -/
def natRepr (n : Nat) : List Char :=
  if n = 0 then [digitChar 0] else (natDigitsRev n).reverse.map digitChar

/-- Python's `str` of an arbitrary integer (leading '-' for negatives). -/
def intRepr : Int → List Char
  | Int.ofNat n => natRepr n
  | Int.negSucc n => '-' :: natRepr (n + 1)

/-- The dict key `f"{row},{col}"` built by `update_value`/`retrieve_value`. -/
def encodeKey (r c : Int) : List Char := intRepr r ++ ',' :: intRepr c

/-- Accumulating decimal parser: the effect of Python's `int` on a digit string
(most significant digit first), threaded through an accumulator. -/
def parseDigitsAux (acc : Nat) : List Char → Nat
  | [] => acc
  | c :: cs => parseDigitsAux (acc * 10 + (c.toNat - 48)) cs

/-- Total integer parser used when iterating dict keys (`map(int, key.split(','))`).
On every key actually produced by `encodeKey` it inverts `intRepr`; on other
inputs Python would raise, and this model returns a junk value instead
(such keys are unreachable through the class API). -/
def parseIntTotal (l : List Char) : Int :=
  match l with
  | [] => 0
  | c :: cs =>
    if c = '-' then - (parseDigitsAux 0 cs : Int)
    else (parseDigitsAux 0 (c :: cs) : Int)

/-- Split a character list at the first comma: models `key.split(',')` on
well-formed two-field keys. -/
def splitOnComma : List Char → List Char × List Char
  | [] => ([], [])
  | c :: rest =>
    if c = ',' then ([], rest)
    else ((c :: (splitOnComma rest).1), (splitOnComma rest).2)

/-- Decode a dict key back to its coordinates: `row, col = map(int, key.split(','))`. -/
def decodeKey (k : List Char) : Int × Int :=
  (parseIntTotal (splitOnComma k).1, parseIntTotal (splitOnComma k).2)

/-- Python dict insertion: overwrite in place if the key exists, else append. -/
def dictInsert (k : List Char) (v : Int) : List (List Char × Int) → List (List Char × Int)
  | [] => [(k, v)]
  | (k', v') :: rest =>
    if k = k' then (k, v) :: rest else (k', v') :: dictInsert k v rest

/-- Python `d.get(key, 0)`. -/
def dictGet (k : List Char) : List (List Char × Int) → Int
  | [] => 0
  | (k', v') :: rest => if k = k' then v' else dictGet k rest

/-- The `CompressedMatrix` class: a dict from string keys to values plus the
declared dimensions. -/
structure CompressedMatrix where
  matrix_data : List (List Char × Int)
  total_rows : Int
  total_cols : Int
deriving DecidableEq, Repr

namespace CompressedMatrix

/-- Constructor `CompressedMatrix(rows_count, cols_count)`: empty dict, given dimensions. -/
def init (rows_count cols_count : Int) : CompressedMatrix :=
  { matrix_data := [], total_rows := rows_count, total_cols := cols_count }

/-- Method `update_value(row, col, val)`: grow each dimension past the index when
needed, then store `val` at key `f"{row},{col}"`. -/
def update_value (m : CompressedMatrix) (row col val : Int) : CompressedMatrix :=
  { matrix_data := dictInsert (encodeKey row col) val m.matrix_data,
    total_rows := if row ≥ m.total_rows then row + 1 else m.total_rows,
    total_cols := if col ≥ m.total_cols then col + 1 else m.total_cols }

/-- Method `retrieve_value(row, col)`: `self.matrix_data.get(f"{row},{col}", 0)`. -/
def retrieve_value (m : CompressedMatrix) (row col : Int) : Int :=
  dictGet (encodeKey row col) m.matrix_data

/-- Method `matrix_add`: dimension check, then copy `self`'s entries into a fresh
matrix and add `other`'s entries on top. -/
def matrix_add (self other_matrix : CompressedMatrix) : Except String CompressedMatrix :=
  if self.total_rows ≠ other_matrix.total_rows ∨ self.total_cols ≠ other_matrix.total_cols then
    Except.error "Cannot add matrices with different dimensions."
  else
    Except.ok
      (other_matrix.matrix_data.foldl
        (fun acc kv =>
          acc.update_value (decodeKey kv.1).1 (decodeKey kv.1).2
            (acc.retrieve_value (decodeKey kv.1).1 (decodeKey kv.1).2 + kv.2))
        (self.matrix_data.foldl
          (fun acc kv =>
            acc.update_value (decodeKey kv.1).1 (decodeKey kv.1).2 kv.2)
          (init self.total_rows self.total_cols)))

/-- Method `matrix_subtract`: dimension check, then for every entry of the second
operand only, store `self.retrieve_value(r, c) - val` in a fresh matrix. -/
def matrix_subtract (self subtract_matrix : CompressedMatrix) : Except String CompressedMatrix :=
  if self.total_rows ≠ subtract_matrix.total_rows ∨ self.total_cols ≠ subtract_matrix.total_cols then
    Except.error "Cannot subtract matrices with different dimensions."
  else
    Except.ok
      (subtract_matrix.matrix_data.foldl
        (fun acc kv =>
          acc.update_value (decodeKey kv.1).1 (decodeKey kv.1).2
            (self.retrieve_value (decodeKey kv.1).1 (decodeKey kv.1).2 - kv.2))
        (init self.total_rows self.total_cols))

/-- Method `matrix_multiply`: inner-dimension check, then the nested scan over both
nonzero sets, accumulating `first_val * second_val` at `(row1, col2)`
whenever `col1 == row2`. -/
def matrix_multiply (self other_matrix : CompressedMatrix) : Except String CompressedMatrix :=
  if self.total_cols ≠ other_matrix.total_rows then
    Except.error "Cannot multiply: the number of columns in the first matrix must equal the number of rows in the second."
  else
    Except.ok
      (self.matrix_data.foldl
        (fun acc1 kv1 =>
          other_matrix.matrix_data.foldl
            (fun acc2 kv2 =>
              if (decodeKey kv1.1).2 = (decodeKey kv2.1).1 then
                acc2.update_value (decodeKey kv1.1).1 (decodeKey kv2.1).2
                  (acc2.retrieve_value (decodeKey kv1.1).1 (decodeKey kv2.1).2 + kv1.2 * kv2.2)
              else acc2)
            acc1)
        (init self.total_rows other_matrix.total_cols))

end CompressedMatrix

/-- True on the whitespace characters Python's `str.strip` removes that can
occur in this format (space, tab, newline, carriage return). -/
def isSpaceChar (c : Char) : Bool :=
  c == ' ' || c == '\t' || c == '\n' || c == '\r'

/-- True on the decimal digit characters accepted by Python's `int`. -/
def isDigitChar (c : Char) : Bool :=
  decide (48 ≤ c.toNat) && decide (c.toNat ≤ 57)

/-- Python's `str.strip()`. -/
def pyStrip (l : List Char) : List Char :=
  ((l.dropWhile isSpaceChar).reverse.dropWhile isSpaceChar).reverse

/-- The sign-and-digits phase of Python's `int(s)`: optional sign, then a
non-empty run of decimal digits; `none` models the `ValueError` on anything
else.  (Underscore digit separators, which never appear in this format, are
not modelled.) -/
def pyIntStripped : List Char → Option Int
  | [] => none
  | c :: cs =>
    if c = '-' then
      if cs ≠ [] ∧ cs.all isDigitChar then some (- (parseDigitsAux 0 cs : Int)) else none
    else if c = '+' then
      if cs ≠ [] ∧ cs.all isDigitChar then some ((parseDigitsAux 0 cs : Int)) else none
    else
      if (c :: cs).all isDigitChar then some ((parseDigitsAux 0 (c :: cs) : Int)) else none

/-- Python's `int(s)` on a string: strip, then parse per `pyIntStripped`. -/
def pyInt (l : List Char) : Option Int :=
  pyIntStripped (pyStrip l)

/-- Python's `s.split(sep)` (accumulator holds the current field reversed). -/
def splitAllAux (sep : Char) (acc : List Char) : List Char → List (List Char)
  | [] => [acc.reverse]
  | c :: rest =>
    if c = sep then acc.reverse :: splitAllAux sep [] rest
    else splitAllAux sep (c :: acc) rest

/-- Python's `s.split(sep)`. -/
def splitAll (sep : Char) (l : List Char) : List (List Char) := splitAllAux sep [] l

/-- The `ValueError`s `import_from_file` can raise, with the payload the
Python message interpolates. -/
inductive ImportError where
  /-- fewer than two (non-blank, stripped) lines: "must contain at least two lines for matrix dimensions". -/
  | tooFewLines
  /-- Message "Invalid matrix dimensions": header token missing or not an integer. -/
  | invalidDimensions
  /-- Message "Invalid format for matrix element: \x7bline\x7d": missing parentheses. -/
  | invalidElementFormat (line : List Char)
  /-- Message "Invalid matrix element format in file: \x7bline\x7d": missing or non-integer fields. -/
  | invalidElementFields (line : List Char)
deriving DecidableEq, Repr

/-- Parse `int(line.split('=')[1])` for a dimension header line: `none` models both
the `IndexError` and the `ValueError` the source catches together. -/
def parseHeaderInt (line : List Char) : Option Int :=
  match (splitAll '=' line).get? 1 with
  | none => none
  | some tok => pyInt tok

namespace CompressedMatrix

/-- The element-line loop of `import_from_file`: check the parentheses, split
the interior on commas, parse the first three fields with `int`, and apply
`update_value`.  A missing third field (Python `IndexError`) and a
non-integer field (Python `ValueError`) are caught together in the source;
both surface here as `invalidElementFields`. -/
def parseElements (m : CompressedMatrix) : List (List Char) → Except ImportError CompressedMatrix
  | [] => Except.ok m
  | element_line :: rest =>
    if element_line.head? ≠ some '(' ∨ element_line.getLast? ≠ some ')' then
      Except.error (ImportError.invalidElementFormat element_line)
    else
      match pyInt (((splitAll ',' ((element_line.drop 1).dropLast))).getD 0 []),
            pyInt (((splitAll ',' ((element_line.drop 1).dropLast))).getD 1 []),
            pyInt (((splitAll ',' ((element_line.drop 1).dropLast))).getD 2 []) with
      | some row_index, some col_index, some value =>
        parseElements (m.update_value row_index col_index value) rest
      | _, _, _ => Except.error (ImportError.invalidElementFields element_line)

/-- Static method `import_from_file`, applied to the list of stripped non-blank lines that
`_load_matrix_from_file` returns: at least two lines, parse both dimension
headers, then fold the element lines through `update_value`. -/
def import_from_file (data_lines : List (List Char)) : Except ImportError CompressedMatrix :=
  match data_lines with
  | [] => Except.error ImportError.tooFewLines
  | [_] => Except.error ImportError.tooFewLines
  | line0 :: line1 :: rest =>
    match parseHeaderInt line0, parseHeaderInt line1 with
    | some rows_count, some cols_count => parseElements (init rows_count cols_count) rest
    | _, _ => Except.error ImportError.invalidDimensions

/-- The characters of "rows=". -/
def rowsHeaderChars : List Char := ['r', 'o', 'w', 's', '=']

/-- The characters of "cols=". -/
def colsHeaderChars : List Char := ['c', 'o', 'l', 's', '=']

/-- One element line of `__str__`: `row, col = key.split(',')` then
`f"(\x7brow\x7d, \x7bcol\x7d, \x7bval\x7d)"`.  (`splitOnComma` splits at the
first comma; on the two-field keys the class produces this is exactly
Python's two-way unpacking.) -/
def elementLine (kv : List Char × Int) : List Char :=
  '(' :: (splitOnComma kv.1).1 ++ ',' :: ' ' :: (splitOnComma kv.1).2
    ++ ',' :: ' ' :: intRepr kv.2 ++ [')']

/-- The lines of `__str__` — also the lines `save_matrix` writes, and (as none
is blank or padded) exactly the stripped non-blank lines a subsequent
`_load_matrix_from_file` of that file returns. -/
def strLines (m : CompressedMatrix) : List (List Char) :=
  (rowsHeaderChars ++ intRepr m.total_rows)
    :: (colsHeaderChars ++ intRepr m.total_cols)
    :: m.matrix_data.map elementLine

end CompressedMatrix

/-- True exactly on `Except.ok`. -/
def exceptOk {ε α : Type} : Except ε α → Bool
  | Except.ok _ => true
  | Except.error _ => false

/-- The matrix an `Except.ok` result carries (dummy on `Except.error`). -/
def okValue {ε : Type} (e : Except ε CompressedMatrix) : CompressedMatrix :=
  match e with
  | Except.ok m => m
  | Except.error _ => CompressedMatrix.init 0 0

/-- True on the keys `encodeKey` can produce, i.e. on every key reachable
through the class API; `decodeKey` then recovers the coordinates. -/
def canonicalKey (k : List Char) : Prop :=
  encodeKey (decodeKey k).1 (decodeKey k).2 = k

/-- Every stored key is one `encodeKey` produced. -/
def CanonicalKeys (m : CompressedMatrix) : Prop :=
  ∀ kv ∈ m.matrix_data, canonicalKey kv.1

/-- The dict's keys are pairwise distinct (a Python dict invariant). -/
def NodupKeys (m : CompressedMatrix) : Prop :=
  (m.matrix_data.map Prod.fst).Nodup

/-- The claimed invariant: every stored coordinate lies inside the declared
dimensions. -/
def InBounds (m : CompressedMatrix) : Prop :=
  ∀ kv ∈ m.matrix_data,
    (decodeKey kv.1).1 < m.total_rows ∧ (decodeKey kv.1).2 < m.total_cols

instance (m : CompressedMatrix) : Decidable (CanonicalKeys m) := by
  unfold CanonicalKeys canonicalKey; infer_instance

instance (m : CompressedMatrix) : Decidable (NodupKeys m) := by
  unfold NodupKeys; infer_instance

instance (m : CompressedMatrix) : Decidable (InBounds m) := by
  unfold InBounds; infer_instance

/-! Decimal rendering and parsing lemmas -/

theorem natDigitsRevAux_congr :
    ∀ (f1 f2 n : Nat), n ≤ f1 → n ≤ f2 → natDigitsRevAux f1 n = natDigitsRevAux f2 n := by
  intro f1
  induction f1 with
  | zero =>
    intro f2 n h1 _
    interval_cases n
    cases f2 <;> rfl
  | succ f1 ih =>
    intro f2 n h1 h2
    match n, f2 with
    | 0, 0 => rfl
    | 0, _ + 1 => rfl
    | m + 1, g + 1 =>
      show ((m + 1) % 10) :: natDigitsRevAux f1 ((m + 1) / 10)
          = ((m + 1) % 10) :: natDigitsRevAux g ((m + 1) / 10)
      have hd : (m + 1) / 10 < m + 1 := Nat.div_lt_self (Nat.succ_pos m) (by norm_num)
      rw [ih g ((m + 1) / 10) (by omega) (by omega)]

theorem natDigitsRev_succ (n : Nat) :
    natDigitsRev (n + 1) = ((n + 1) % 10) :: natDigitsRev ((n + 1) / 10) := by
  have hd : (n + 1) / 10 < n + 1 := Nat.div_lt_self (Nat.succ_pos n) (by norm_num)
  show natDigitsRevAux (n + 1) (n + 1) = ((n + 1) % 10) :: natDigitsRevAux ((n + 1) / 10) ((n + 1) / 10)
  show ((n + 1) % 10) :: natDigitsRevAux n ((n + 1) / 10)
      = ((n + 1) % 10) :: natDigitsRevAux ((n + 1) / 10) ((n + 1) / 10)
  rw [natDigitsRevAux_congr n ((n + 1) / 10) ((n + 1) / 10) (by omega) (by omega)]

theorem mem_natDigitsRev_lt_aux :
    ∀ (f n : Nat), n ≤ f → ∀ d ∈ natDigitsRev n, d < 10 := by
  intro f
  induction f with
  | zero =>
    intro n hn
    interval_cases n
    intro d hd
    exact absurd hd (List.not_mem_nil d)
  | succ f ih =>
    intro n hn d hd
    match n with
    | 0 => exact absurd hd (List.not_mem_nil d)
    | m + 1 =>
      rw [natDigitsRev_succ] at hd
      rcases List.mem_cons.mp hd with h | h
      · subst h; exact Nat.mod_lt _ (by norm_num)
      · have hq : (m + 1) / 10 < m + 1 := Nat.div_lt_self (Nat.succ_pos m) (by norm_num)
        exact ih ((m + 1) / 10) (by omega) d h

theorem mem_natDigitsRev_lt (n : Nat) : ∀ d ∈ natDigitsRev n, d < 10 :=
  mem_natDigitsRev_lt_aux n n (Nat.le_refl n)

theorem parseDigitsAux_append (l1 l2 : List Char) :
    ∀ acc, parseDigitsAux acc (l1 ++ l2) = parseDigitsAux (parseDigitsAux acc l1) l2 := by
  induction l1 with
  | nil => intro acc; rfl
  | cons c cs ih => intro acc; exact ih _

theorem digitChar_toNat (d : Nat) (h : d < 10) : (digitChar d).toNat = 48 + d := by
  interval_cases d <;> decide

theorem isDigitChar_digitChar (d : Nat) (h : d < 10) : isDigitChar (digitChar d) = true := by
  unfold isDigitChar
  rw [digitChar_toNat d h]
  simp only [Bool.and_eq_true, decide_eq_true_eq]
  omega

theorem parseDigits_digits_zero :
    ∀ acc, parseDigitsAux acc ((natDigitsRev 0).reverse.map digitChar)
      = acc * 10 ^ (natDigitsRev 0).length + 0 := by
  intro acc
  have h0 : natDigitsRev 0 = [] := rfl
  rw [h0]
  show acc = acc * 10 ^ (0 : Nat) + 0
  rw [pow_zero, mul_one, Nat.add_zero]

theorem parseDigits_digits_aux :
    ∀ (f n : Nat), n ≤ f → ∀ acc,
      parseDigitsAux acc ((natDigitsRev n).reverse.map digitChar)
        = acc * 10 ^ (natDigitsRev n).length + n := by
  intro f
  induction f with
  | zero =>
    intro n hn
    have hn0 : n = 0 := Nat.le_zero.mp hn
    subst hn0
    exact parseDigits_digits_zero
  | succ f ih =>
    intro n hn acc
    match n with
    | 0 => exact parseDigits_digits_zero acc
    | m + 1 =>
      rw [natDigitsRev_succ]
      have hq : (m + 1) / 10 < m + 1 := Nat.div_lt_self (Nat.succ_pos m) (by norm_num)
      have hmod : (m + 1) % 10 < 10 := Nat.mod_lt _ (by norm_num)
      rw [List.reverse_cons, List.map_append, parseDigitsAux_append]
      rw [ih ((m + 1) / 10) (by omega) acc]
      show (acc * 10 ^ (natDigitsRev ((m + 1) / 10)).length + (m + 1) / 10) * 10
            + ((digitChar ((m + 1) % 10)).toNat - 48)
          = acc * 10 ^ (((m + 1) % 10 :: natDigitsRev ((m + 1) / 10)).length) + (m + 1)
      rw [digitChar_toNat _ hmod, List.length_cons]
      have hdm : 10 * ((m + 1) / 10) + (m + 1) % 10 = m + 1 := Nat.div_add_mod (m + 1) 10
      rw [pow_succ, ← mul_assoc]
      set X := acc * 10 ^ (natDigitsRev ((m + 1) / 10)).length
      omega

theorem parseDigitsAux_natRepr (n : Nat) : parseDigitsAux 0 (natRepr n) = n := by
  by_cases h : n = 0
  · subst h; decide
  · unfold natRepr
    rw [if_neg h, parseDigits_digits_aux n n (Nat.le_refl n) 0]
    simp

theorem natRepr_all_digit (n : Nat) : ∀ c ∈ natRepr n, isDigitChar c = true := by
  intro c hc
  unfold natRepr at hc
  by_cases h : n = 0
  · rw [if_pos h] at hc
    rcases List.mem_cons.mp hc with h' | h'
    · subst h'; decide
    · exact absurd h' (List.not_mem_nil c)
  · rw [if_neg h] at hc
    rcases List.mem_map.mp hc with ⟨d, hd, hdc⟩
    subst hdc
    exact isDigitChar_digitChar d (mem_natDigitsRev_lt n d (List.mem_reverse.mp hd))

theorem natDigitsRev_ne_nil (n : Nat) (h : n ≠ 0) : natDigitsRev n ≠ [] := by
  match n, h with
  | m + 1, _ => rw [natDigitsRev_succ]; exact List.cons_ne_nil _ _

theorem natRepr_ne_nil (n : Nat) : natRepr n ≠ [] := by
  unfold natRepr
  by_cases h : n = 0
  · rw [if_pos h]; exact List.cons_ne_nil _ _
  · rw [if_neg h]
    intro hcon
    have hrev : (natDigitsRev n).reverse = [] := List.map_eq_nil_iff.mp hcon
    exact natDigitsRev_ne_nil n h (by rwa [List.reverse_eq_nil_iff] at hrev)

theorem digit_facts (c : Char) (h : isDigitChar c = true) :
    c ≠ ',' ∧ c ≠ '-' ∧ c ≠ '+' ∧ c ≠ '=' ∧ isSpaceChar c = false := by
  refine ⟨?_, ?_, ?_, ?_, ?_⟩
  · intro hc; subst hc; exact absurd h (by decide)
  · intro hc; subst hc; exact absurd h (by decide)
  · intro hc; subst hc; exact absurd h (by decide)
  · intro hc; subst hc; exact absurd h (by decide)
  · by_contra hs
    have hs' : isSpaceChar c = true := by
      cases hh : isSpaceChar c
      · exact absurd hh hs
      · rfl
    unfold isSpaceChar at hs'
    simp only [Bool.or_eq_true, beq_iff_eq] at hs'
    rcases hs' with ((h' | h') | h') | h' <;> (subst h'; exact absurd h (by decide))

theorem intRepr_chars (i : Int) : ∀ c ∈ intRepr i, isDigitChar c = true ∨ c = '-' := by
  intro c hc
  match i with
  | Int.ofNat n => exact Or.inl (natRepr_all_digit n c hc)
  | Int.negSucc n =>
    rcases List.mem_cons.mp hc with h | h
    · exact Or.inr h
    · exact Or.inl (natRepr_all_digit (n + 1) c h)

theorem intRepr_ne_nil (i : Int) : intRepr i ≠ [] := by
  match i with
  | Int.ofNat n => exact natRepr_ne_nil n
  | Int.negSucc n => exact List.cons_ne_nil _ _

theorem intRepr_no_comma (i : Int) : ∀ c ∈ intRepr i, c ≠ ',' := by
  intro c hc
  rcases intRepr_chars i c hc with h | h
  · exact (digit_facts c h).1
  · subst h; decide

theorem intRepr_no_eq_sign (i : Int) : ∀ c ∈ intRepr i, c ≠ '=' := by
  intro c hc
  rcases intRepr_chars i c hc with h | h
  · exact (digit_facts c h).2.2.2.1
  · subst h; decide

theorem intRepr_no_space (i : Int) : ∀ c ∈ intRepr i, isSpaceChar c = false := by
  intro c hc
  rcases intRepr_chars i c hc with h | h
  · exact (digit_facts c h).2.2.2.2
  · subst h; decide

theorem parseIntTotal_natRepr (n : Nat) : parseIntTotal (natRepr n) = (n : Int) := by
  cases hn : natRepr n with
  | nil => exact absurd hn (natRepr_ne_nil n)
  | cons c cs =>
    have hd : isDigitChar c = true := by
      apply natRepr_all_digit n
      rw [hn]; exact List.mem_cons_self c cs
    show parseIntTotal (c :: cs) = (n : Int)
    have hm : parseIntTotal (c :: cs)
        = if c = '-' then - (parseDigitsAux 0 cs : Int) else (parseDigitsAux 0 (c :: cs) : Int) := rfl
    rw [hm, if_neg (digit_facts c hd).2.1, ← hn, parseDigitsAux_natRepr n]

theorem parseIntTotal_intRepr (i : Int) : parseIntTotal (intRepr i) = i := by
  match i with
  | Int.ofNat n => exact parseIntTotal_natRepr n
  | Int.negSucc n =>
    show parseIntTotal ('-' :: natRepr (n + 1)) = Int.negSucc n
    have hm : parseIntTotal ('-' :: natRepr (n + 1))
        = - (parseDigitsAux 0 (natRepr (n + 1)) : Int) := by
      have hmm : parseIntTotal ('-' :: natRepr (n + 1))
          = if ('-' : Char) = '-' then - (parseDigitsAux 0 (natRepr (n + 1)) : Int)
            else (parseDigitsAux 0 ('-' :: natRepr (n + 1)) : Int) := rfl
      rw [hmm, if_pos rfl]
    rw [hm, parseDigitsAux_natRepr (n + 1), Int.negSucc_eq]
    push_cast
    ring

theorem splitOnComma_append (a b : List Char) (ha : ∀ c ∈ a, c ≠ ',') :
    splitOnComma (a ++ ',' :: b) = (a, b) := by
  induction a with
  | nil =>
    show splitOnComma (',' :: b) = ([], b)
    unfold splitOnComma
    rw [if_pos rfl]
  | cons c cs ih =>
    have hc : c ≠ ',' := ha c (List.mem_cons_self c cs)
    show splitOnComma (c :: (cs ++ ',' :: b)) = (c :: cs, b)
    unfold splitOnComma
    rw [if_neg hc, ih (fun x hx => ha x (List.mem_cons_of_mem c hx))]

theorem decodeKey_encodeKey (r c : Int) : decodeKey (encodeKey r c) = (r, c) := by
  unfold decodeKey encodeKey
  rw [splitOnComma_append (intRepr r) (intRepr c) (intRepr_no_comma r)]
  rw [parseIntTotal_intRepr, parseIntTotal_intRepr]

theorem encodeKey_inj (r1 c1 r2 c2 : Int) (h : encodeKey r1 c1 = encodeKey r2 c2) :
    r1 = r2 ∧ c1 = c2 := by
  have h2 := congrArg decodeKey h
  rw [decodeKey_encodeKey, decodeKey_encodeKey] at h2
  exact ⟨congrArg Prod.fst h2, congrArg Prod.snd h2⟩

theorem canonicalKey_encodeKey (r c : Int) : canonicalKey (encodeKey r c) := by
  unfold canonicalKey
  rw [decodeKey_encodeKey]

/-! Strip, int parsing and split lemmas -/

theorem dropWhile_eq_self_of (p : Char → Bool) (l : List Char) (h : ∀ c ∈ l, p c = false) :
    l.dropWhile p = l := by
  cases l with
  | nil => rfl
  | cons c cs =>
    rw [List.dropWhile_cons, h c (List.mem_cons_self c cs)]
    simp

theorem pyStrip_eq_self (l : List Char) (h : ∀ c ∈ l, isSpaceChar c = false) : pyStrip l = l := by
  unfold pyStrip
  rw [dropWhile_eq_self_of _ l h]
  rw [dropWhile_eq_self_of _ l.reverse (fun c hc => h c (List.mem_reverse.mp hc))]
  exact List.reverse_reverse l

theorem pyStrip_cons_space (l : List Char) (h : ∀ c ∈ l, isSpaceChar c = false) :
    pyStrip (' ' :: l) = l := by
  unfold pyStrip
  rw [List.dropWhile_cons]
  have hsp : isSpaceChar ' ' = true := by decide
  rw [hsp, if_pos rfl]
  rw [dropWhile_eq_self_of _ l h]
  rw [dropWhile_eq_self_of _ l.reverse (fun c hc => h c (List.mem_reverse.mp hc))]
  exact List.reverse_reverse l

theorem all_digit_natRepr (n : Nat) : (natRepr n).all isDigitChar = true := by
  rw [List.all_eq_true]
  intro c hc
  exact natRepr_all_digit n c hc

theorem pyIntStripped_natRepr (n : Nat) : pyIntStripped (natRepr n) = some (n : Int) := by
  cases hn : natRepr n with
  | nil => exact absurd hn (natRepr_ne_nil n)
  | cons c cs =>
    have hd : isDigitChar c = true := by
      apply natRepr_all_digit n
      rw [hn]; exact List.mem_cons_self c cs
    simp only [pyIntStripped]
    rw [if_neg (digit_facts c hd).2.1, if_neg (digit_facts c hd).2.2.1]
    rw [if_pos (by rw [← hn]; exact all_digit_natRepr n)]
    rw [← hn, parseDigitsAux_natRepr n]

theorem pyIntStripped_intRepr (i : Int) : pyIntStripped (intRepr i) = some i := by
  match i with
  | Int.ofNat n => exact pyIntStripped_natRepr n
  | Int.negSucc n =>
    show pyIntStripped ('-' :: natRepr (n + 1)) = some (Int.negSucc n)
    simp only [pyIntStripped]
    rw [if_pos trivial]
    rw [if_pos ⟨natRepr_ne_nil (n + 1), all_digit_natRepr (n + 1)⟩]
    rw [parseDigitsAux_natRepr (n + 1), Int.negSucc_eq]
    norm_cast

theorem pyInt_intRepr (i : Int) : pyInt (intRepr i) = some i := by
  unfold pyInt
  rw [pyStrip_eq_self _ (intRepr_no_space i), pyIntStripped_intRepr]

theorem pyInt_space_intRepr (i : Int) : pyInt (' ' :: intRepr i) = some i := by
  unfold pyInt
  rw [pyStrip_cons_space _ (intRepr_no_space i), pyIntStripped_intRepr]

theorem splitAllAux_no_sep (sep : Char) (l : List Char) (h : ∀ c ∈ l, c ≠ sep) :
    ∀ acc, splitAllAux sep acc l = [acc.reverse ++ l] := by
  induction l with
  | nil => intro acc; simp [splitAllAux]
  | cons c cs ih =>
    intro acc
    simp only [splitAllAux]
    rw [if_neg (h c (List.mem_cons_self c cs))]
    rw [ih (fun x hx => h x (List.mem_cons_of_mem c hx)) (c :: acc)]
    simp

theorem splitAll_no_sep (sep : Char) (l : List Char) (h : ∀ c ∈ l, c ≠ sep) :
    splitAll sep l = [l] := by
  unfold splitAll
  rw [splitAllAux_no_sep sep l h []]
  rfl

theorem splitAllAux_append_sep (sep : Char) (a rest : List Char) (ha : ∀ c ∈ a, c ≠ sep) :
    ∀ acc, splitAllAux sep acc (a ++ sep :: rest) = (acc.reverse ++ a) :: splitAllAux sep [] rest := by
  induction a with
  | nil =>
    intro acc
    simp only [List.nil_append, splitAllAux]
    rw [if_pos trivial]
    simp
  | cons c cs ih =>
    intro acc
    simp only [List.cons_append, splitAllAux, List.append_eq]
    rw [if_neg (ha c (List.mem_cons_self c cs))]
    rw [ih (fun x hx => ha x (List.mem_cons_of_mem c hx)) (c :: acc)]
    simp

theorem splitAll_append_sep (sep : Char) (a rest : List Char) (ha : ∀ c ∈ a, c ≠ sep) :
    splitAll sep (a ++ sep :: rest) = a :: splitAll sep rest := by
  unfold splitAll
  rw [splitAllAux_append_sep sep a rest ha []]
  rfl

/-! Dict (association list) lemmas -/

theorem dictGet_insert_self (k : List Char) (v : Int) (l : List (List Char × Int)) :
    dictGet k (dictInsert k v l) = v := by
  induction l with
  | nil => simp [dictInsert, dictGet]
  | cons kv rest ih =>
    match kv with
    | (k', v') =>
      simp only [dictInsert]
      by_cases h : k = k'
      · rw [if_pos h]; simp [dictGet]
      · rw [if_neg h]
        simp only [dictGet]
        rw [if_neg h]
        exact ih

theorem dictGet_insert_ne (k k' : List Char) (v : Int) (l : List (List Char × Int))
    (h : k' ≠ k) : dictGet k' (dictInsert k v l) = dictGet k' l := by
  induction l with
  | nil => simp [dictInsert, dictGet, if_neg h]
  | cons kv rest ih =>
    match kv with
    | (ka, va) =>
      simp only [dictInsert]
      by_cases hk : k = ka
      · rw [if_pos hk]
        simp only [dictGet]
        rw [if_neg h, if_neg (hk ▸ h)]
      · rw [if_neg hk]
        simp only [dictGet]
        by_cases hk' : k' = ka
        · rw [if_pos hk', if_pos hk']
        · rw [if_neg hk', if_neg hk']
          exact ih

theorem dictInsert_not_mem (k : List Char) (v : Int) (l : List (List Char × Int))
    (h : k ∉ l.map Prod.fst) : dictInsert k v l = l ++ [(k, v)] := by
  induction l with
  | nil => rfl
  | cons kv rest ih =>
    match kv with
    | (ka, va) =>
      simp only [List.map_cons, List.mem_cons] at h
      push_neg at h
      simp only [dictInsert]
      rw [if_neg h.1]
      rw [ih h.2]
      rfl

theorem mem_dictInsert (kv : List Char × Int) (k : List Char) (v : Int)
    (l : List (List Char × Int)) (h : kv ∈ dictInsert k v l) : kv = (k, v) ∨ kv ∈ l := by
  induction l with
  | nil =>
    simp only [dictInsert] at h
    rcases List.mem_cons.mp h with h' | h'
    · exact Or.inl h'
    · exact absurd h' (List.not_mem_nil kv)
  | cons ka rest ih =>
    match ka with
    | (ka, va) =>
      simp only [dictInsert] at h
      by_cases hk : k = ka
      · rw [if_pos hk] at h
        rcases List.mem_cons.mp h with h' | h'
        · exact Or.inl h'
        · exact Or.inr (List.mem_cons_of_mem _ h')
      · rw [if_neg hk] at h
        rcases List.mem_cons.mp h with h' | h'
        · exact Or.inr (h' ▸ List.mem_cons_self _ _)
        · rcases ih h' with h'' | h''
          · exact Or.inl h''
          · exact Or.inr (List.mem_cons_of_mem _ h'')

theorem mem_keys_dictInsert (k' k : List Char) (v : Int) (l : List (List Char × Int))
    (h : k' ∈ (dictInsert k v l).map Prod.fst) : k' = k ∨ k' ∈ l.map Prod.fst := by
  rcases List.mem_map.mp h with ⟨kv, hkv, hfst⟩
  rcases mem_dictInsert kv k v l hkv with h' | h'
  · left; rw [← hfst, h']
  · right; rw [← hfst]; exact List.mem_map_of_mem Prod.fst h'

theorem dictGet_not_mem (k : List Char) (l : List (List Char × Int))
    (h : k ∉ l.map Prod.fst) : dictGet k l = 0 := by
  induction l with
  | nil => rfl
  | cons kv rest ih =>
    match kv with
    | (ka, va) =>
      simp only [List.map_cons, List.mem_cons] at h
      push_neg at h
      simp only [dictGet]
      rw [if_neg h.1]
      exact ih h.2

theorem sum_match_zero (k : List Char) (l : List (List Char × Int))
    (h : ∀ kv ∈ l, kv.1 ≠ k) :
    (l.map fun kv => if kv.1 = k then kv.2 else 0).sum = 0 := by
  induction l with
  | nil => rfl
  | cons kv rest ih =>
    simp only [List.map_cons, List.sum_cons]
    rw [if_neg (h kv (List.mem_cons_self kv rest))]
    rw [ih (fun x hx => h x (List.mem_cons_of_mem kv hx))]
    simp

theorem sum_match_eq_dictGet (k : List Char) (l : List (List Char × Int))
    (h : (l.map Prod.fst).Nodup) :
    (l.map fun kv => if kv.1 = k then kv.2 else 0).sum = dictGet k l := by
  induction l with
  | nil => rfl
  | cons kv rest ih =>
    simp only [List.map_cons, List.nodup_cons] at h
    have hdg : dictGet k (kv :: rest) = if k = kv.1 then kv.2 else dictGet k rest := by
      match kv with
      | (ka, va) => rfl
    simp only [List.map_cons, List.sum_cons]
    rw [hdg]
    by_cases hk : kv.1 = k
    · rw [if_pos hk, if_pos hk.symm]
      have hz : ∀ x ∈ rest, x.1 ≠ k := by
        intro x hx hxk
        apply h.1
        rw [hk, ← hxk]
        exact List.mem_map_of_mem Prod.fst hx
      rw [sum_match_zero k rest hz]
      ring
    · rw [if_neg hk, if_neg (fun he => hk he.symm)]
      rw [ih h.2]
      ring

/-! Matrix operation lemmas -/

namespace CompressedMatrix

theorem retrieve_update (m : CompressedMatrix) (r c v r' c' : Int) :
    (m.update_value r c v).retrieve_value r' c'
      = if r = r' ∧ c = c' then v else m.retrieve_value r' c' := by
  unfold update_value retrieve_value
  by_cases h : r = r' ∧ c = c'
  · rw [if_pos h]
    obtain ⟨h1, h2⟩ := h
    subst h1; subst h2
    exact dictGet_insert_self _ _ _
  · rw [if_neg h]
    apply dictGet_insert_ne
    intro he
    obtain ⟨h1, h2⟩ := encodeKey_inj r' c' r c he
    exact h ⟨h1.symm, h2.symm⟩

theorem update_total_rows (m : CompressedMatrix) (r c v : Int) :
    (m.update_value r c v).total_rows = if r ≥ m.total_rows then r + 1 else m.total_rows := rfl

theorem update_total_cols (m : CompressedMatrix) (r c v : Int) :
    (m.update_value r c v).total_cols = if c ≥ m.total_cols then c + 1 else m.total_cols := rfl

theorem update_rows_of_lt (m : CompressedMatrix) (r c v : Int) (h : r < m.total_rows) :
    (m.update_value r c v).total_rows = m.total_rows := by
  rw [update_total_rows, if_neg (not_le.mpr h)]

theorem update_cols_of_lt (m : CompressedMatrix) (r c v : Int) (h : c < m.total_cols) :
    (m.update_value r c v).total_cols = m.total_cols := by
  rw [update_total_cols, if_neg (not_le.mpr h)]

theorem le_update_rows (m : CompressedMatrix) (r c v : Int) :
    m.total_rows ≤ (m.update_value r c v).total_rows := by
  rw [update_total_rows]
  by_cases h : r ≥ m.total_rows
  · rw [if_pos h]; omega
  · rw [if_neg h]

theorem le_update_cols (m : CompressedMatrix) (r c v : Int) :
    m.total_cols ≤ (m.update_value r c v).total_cols := by
  rw [update_total_cols]
  by_cases h : c ≥ m.total_cols
  · rw [if_pos h]; omega
  · rw [if_neg h]

end CompressedMatrix

theorem InBounds_init (r c : Int) : InBounds (CompressedMatrix.init r c) := by
  intro kv hkv
  exact absurd hkv (List.not_mem_nil kv)

theorem InBounds_update (m : CompressedMatrix) (r c v : Int) (h : InBounds m) :
    InBounds (m.update_value r c v) := by
  intro kv hkv
  have hrow := CompressedMatrix.le_update_rows m r c v
  have hcol := CompressedMatrix.le_update_cols m r c v
  have hrlt : r < (m.update_value r c v).total_rows := by
    rw [CompressedMatrix.update_total_rows]
    by_cases hge : r ≥ m.total_rows
    · rw [if_pos hge]; omega
    · rw [if_neg hge]; omega
  have hclt : c < (m.update_value r c v).total_cols := by
    rw [CompressedMatrix.update_total_cols]
    by_cases hge : c ≥ m.total_cols
    · rw [if_pos hge]; omega
    · rw [if_neg hge]; omega
  have hkv' : kv ∈ dictInsert (encodeKey r c) v m.matrix_data := hkv
  rcases mem_dictInsert kv (encodeKey r c) v m.matrix_data hkv' with he | hm
  · subst he
    refine ⟨?_, ?_⟩
    · show (decodeKey (encodeKey r c)).1 < _
      rw [decodeKey_encodeKey]
      exact hrlt
    · show (decodeKey (encodeKey r c)).2 < _
      rw [decodeKey_encodeKey]
      exact hclt
  · obtain ⟨h1, h2⟩ := h kv hm
    exact ⟨by omega, by omega⟩

theorem InBounds_foldl (g : CompressedMatrix → (List Char × Int) → CompressedMatrix)
    (hg : ∀ a kv, InBounds a → InBounds (g a kv)) :
    ∀ (l : List (List Char × Int)) (acc : CompressedMatrix),
      InBounds acc → InBounds (List.foldl g acc l) := by
  intro l
  induction l with
  | nil => intro acc h; exact h
  | cons kv rest ih => intro acc h; exact ih (g acc kv) (hg acc kv h)

/-! Fold lemmas for the three binary operations -/

theorem insFold_eq (f : List Char × Int → Int) :
    ∀ (l : List (List Char × Int)) (acc : CompressedMatrix),
      (∀ kv ∈ l, canonicalKey kv.1) →
      (l.map Prod.fst).Nodup →
      (∀ kv ∈ l, kv.1 ∉ acc.matrix_data.map Prod.fst) →
      (∀ kv ∈ l, (decodeKey kv.1).1 < acc.total_rows ∧ (decodeKey kv.1).2 < acc.total_cols) →
      List.foldl (fun a kv => a.update_value (decodeKey kv.1).1 (decodeKey kv.1).2 (f kv)) acc l
        = ⟨acc.matrix_data ++ l.map (fun kv => (kv.1, f kv)), acc.total_rows, acc.total_cols⟩ := by
  intro l
  induction l with
  | nil =>
    intro acc _ _ _ _
    show acc = ⟨acc.matrix_data ++ [], acc.total_rows, acc.total_cols⟩
    rw [List.append_nil]
  | cons kv rest ih =>
    intro acc hcan hnd hfresh hbnd
    have hk := hcan kv (List.mem_cons_self kv rest)
    have hfr := hfresh kv (List.mem_cons_self kv rest)
    have hb := hbnd kv (List.mem_cons_self kv rest)
    have hnd' : (kv.1 :: rest.map Prod.fst).Nodup := by rw [List.map_cons] at hnd; exact hnd
    have hndr := (List.nodup_cons.mp hnd').2
    have hhd : kv.1 ∉ rest.map Prod.fst := (List.nodup_cons.mp hnd').1
    have hstep : acc.update_value (decodeKey kv.1).1 (decodeKey kv.1).2 (f kv)
        = ⟨acc.matrix_data ++ [(kv.1, f kv)], acc.total_rows, acc.total_cols⟩ := by
      unfold CompressedMatrix.update_value
      rw [if_neg (not_le.mpr hb.1), if_neg (not_le.mpr hb.2)]
      have hdata : dictInsert (encodeKey (decodeKey kv.1).1 (decodeKey kv.1).2) (f kv) acc.matrix_data
          = acc.matrix_data ++ [(kv.1, f kv)] := by
        rw [hk]
        exact dictInsert_not_mem kv.1 (f kv) acc.matrix_data hfr
      rw [hdata]
    simp only [List.foldl_cons]
    rw [hstep]
    rw [ih ⟨acc.matrix_data ++ [(kv.1, f kv)], acc.total_rows, acc.total_cols⟩
        (fun x hx => hcan x (List.mem_cons_of_mem kv hx))
        hndr
        ?hfresh
        (fun x hx => hbnd x (List.mem_cons_of_mem kv hx))]
    case hfresh =>
      intro x hx
      show x.1 ∉ (acc.matrix_data ++ [(kv.1, f kv)]).map Prod.fst
      rw [List.map_append]
      intro hmem
      rcases List.mem_append.mp hmem with hmem | hmem
      · exact hfresh x (List.mem_cons_of_mem kv hx) hmem
      · simp only [List.map_cons, List.map_nil, List.mem_singleton] at hmem
        exact hhd (hmem ▸ List.mem_map_of_mem Prod.fst hx)
    show (⟨(acc.matrix_data ++ [(kv.1, f kv)]) ++ rest.map (fun kv => (kv.1, f kv)),
        acc.total_rows, acc.total_cols⟩ : CompressedMatrix) = _
    rw [List.append_assoc]
    rfl

theorem copyFold_eq (l : List (List Char × Int)) (acc : CompressedMatrix)
    (hcan : ∀ kv ∈ l, canonicalKey kv.1)
    (hnd : (l.map Prod.fst).Nodup)
    (hfresh : ∀ kv ∈ l, kv.1 ∉ acc.matrix_data.map Prod.fst)
    (hbnd : ∀ kv ∈ l, (decodeKey kv.1).1 < acc.total_rows ∧ (decodeKey kv.1).2 < acc.total_cols) :
    List.foldl (fun a kv => a.update_value (decodeKey kv.1).1 (decodeKey kv.1).2 kv.2) acc l
      = ⟨acc.matrix_data ++ l, acc.total_rows, acc.total_cols⟩ := by
  refine Eq.trans (insFold_eq (fun kv => kv.2) l acc hcan hnd hfresh hbnd) ?_
  have hmap : l.map (fun kv => (kv.1, (fun kv : List Char × Int => kv.2) kv)) = l := by
    simp
  rw [hmap]

theorem subFold_eq (self : CompressedMatrix) (l : List (List Char × Int)) (acc : CompressedMatrix)
    (hcan : ∀ kv ∈ l, canonicalKey kv.1)
    (hnd : (l.map Prod.fst).Nodup)
    (hfresh : ∀ kv ∈ l, kv.1 ∉ acc.matrix_data.map Prod.fst)
    (hbnd : ∀ kv ∈ l, (decodeKey kv.1).1 < acc.total_rows ∧ (decodeKey kv.1).2 < acc.total_cols) :
    List.foldl (fun a kv => a.update_value (decodeKey kv.1).1 (decodeKey kv.1).2
        (self.retrieve_value (decodeKey kv.1).1 (decodeKey kv.1).2 - kv.2)) acc l
      = ⟨acc.matrix_data ++ l.map (fun kv => (kv.1,
          self.retrieve_value (decodeKey kv.1).1 (decodeKey kv.1).2 - kv.2)),
        acc.total_rows, acc.total_cols⟩ :=
  insFold_eq (fun kv => self.retrieve_value (decodeKey kv.1).1 (decodeKey kv.1).2 - kv.2)
    l acc hcan hnd hfresh hbnd

theorem key_ne_of_not_decode (kv : List Char × Int) (r c : Int)
    (h : ¬((decodeKey kv.1).1 = r ∧ (decodeKey kv.1).2 = c)) : kv.1 ≠ encodeKey r c := by
  intro he
  have hd := congrArg decodeKey he
  rw [decodeKey_encodeKey] at hd
  exact h ⟨congrArg Prod.fst hd, congrArg Prod.snd hd⟩

theorem addFold_get :
    ∀ (l : List (List Char × Int)) (acc : CompressedMatrix) (r c : Int),
      (∀ kv ∈ l, canonicalKey kv.1) →
      (List.foldl (fun a kv => a.update_value (decodeKey kv.1).1 (decodeKey kv.1).2
          (a.retrieve_value (decodeKey kv.1).1 (decodeKey kv.1).2 + kv.2)) acc l).retrieve_value r c
        = acc.retrieve_value r c + (l.map fun kv => if kv.1 = encodeKey r c then kv.2 else 0).sum := by
  intro l
  induction l with
  | nil => intro acc r c _; simp
  | cons kv rest ih =>
    intro acc r c hcan
    simp only [List.foldl_cons, List.map_cons, List.sum_cons]
    rw [ih _ r c (fun x hx => hcan x (List.mem_cons_of_mem kv hx))]
    have hck := hcan kv (List.mem_cons_self kv rest)
    have hupd : (acc.update_value (decodeKey kv.1).1 (decodeKey kv.1).2
        (acc.retrieve_value (decodeKey kv.1).1 (decodeKey kv.1).2 + kv.2)).retrieve_value r c
        = acc.retrieve_value r c + (if kv.1 = encodeKey r c then kv.2 else 0) := by
      rw [CompressedMatrix.retrieve_update]
      by_cases h : (decodeKey kv.1).1 = r ∧ (decodeKey kv.1).2 = c
      · have hkey : kv.1 = encodeKey r c := by
          rw [← hck, h.1, h.2]
        rw [if_pos h, if_pos hkey, h.1, h.2]
      · rw [if_neg h, if_neg (key_ne_of_not_decode kv r c h)]
        ring
    rw [hupd]
    ring

theorem addFold_dims :
    ∀ (l : List (List Char × Int)) (acc : CompressedMatrix),
      (∀ kv ∈ l, (decodeKey kv.1).1 < acc.total_rows ∧ (decodeKey kv.1).2 < acc.total_cols) →
      (List.foldl (fun a kv => a.update_value (decodeKey kv.1).1 (decodeKey kv.1).2
          (a.retrieve_value (decodeKey kv.1).1 (decodeKey kv.1).2 + kv.2)) acc l).total_rows
        = acc.total_rows ∧
      (List.foldl (fun a kv => a.update_value (decodeKey kv.1).1 (decodeKey kv.1).2
          (a.retrieve_value (decodeKey kv.1).1 (decodeKey kv.1).2 + kv.2)) acc l).total_cols
        = acc.total_cols := by
  intro l
  induction l with
  | nil => intro acc _; exact ⟨rfl, rfl⟩
  | cons kv rest ih =>
    intro acc hbnd
    have hb := hbnd kv (List.mem_cons_self kv rest)
    simp only [List.foldl_cons]
    have hrows := CompressedMatrix.update_rows_of_lt acc (decodeKey kv.1).1 (decodeKey kv.1).2
      (acc.retrieve_value (decodeKey kv.1).1 (decodeKey kv.1).2 + kv.2) hb.1
    have hcols := CompressedMatrix.update_cols_of_lt acc (decodeKey kv.1).1 (decodeKey kv.1).2
      (acc.retrieve_value (decodeKey kv.1).1 (decodeKey kv.1).2 + kv.2) hb.2
    obtain ⟨ih1, ih2⟩ := ih _ (fun x hx => by
      obtain ⟨hx1, hx2⟩ := hbnd x (List.mem_cons_of_mem kv hx)
      rw [hrows, hcols]
      exact ⟨hx1, hx2⟩)
    rw [ih1, ih2, hrows, hcols]
    exact ⟨rfl, rfl⟩

theorem addFold_keys :
    ∀ (l : List (List Char × Int)) (acc : CompressedMatrix),
      (∀ kv ∈ l, canonicalKey kv.1) →
      ∀ k ∈ (List.foldl (fun a kv => a.update_value (decodeKey kv.1).1 (decodeKey kv.1).2
          (a.retrieve_value (decodeKey kv.1).1 (decodeKey kv.1).2 + kv.2)) acc l).matrix_data.map Prod.fst,
        k ∈ acc.matrix_data.map Prod.fst ∨ k ∈ l.map Prod.fst := by
  intro l
  induction l with
  | nil => intro acc _ k hk; exact Or.inl hk
  | cons kv rest ih =>
    intro acc hcan k hk
    simp only [List.foldl_cons] at hk
    have hck := hcan kv (List.mem_cons_self kv rest)
    rcases ih _ (fun x hx => hcan x (List.mem_cons_of_mem kv hx)) k hk with h | h
    · have h' : k ∈ (dictInsert (encodeKey (decodeKey kv.1).1 (decodeKey kv.1).2)
          (acc.retrieve_value (decodeKey kv.1).1 (decodeKey kv.1).2 + kv.2)
          acc.matrix_data).map Prod.fst := h
      rcases mem_keys_dictInsert k _ _ _ h' with h'' | h''
      · right
        rw [List.map_cons]
        rw [h'', hck]
        exact List.mem_cons_self _ _
      · exact Or.inl h''
    · right
      rw [List.map_cons]
      exact List.mem_cons_of_mem _ h

theorem mulInnerFold_get (kv1 : List Char × Int) :
    ∀ (l2 : List (List Char × Int)) (acc : CompressedMatrix) (r c : Int),
      (List.foldl (fun acc2 kv2 =>
          if (decodeKey kv1.1).2 = (decodeKey kv2.1).1 then
            acc2.update_value (decodeKey kv1.1).1 (decodeKey kv2.1).2
              (acc2.retrieve_value (decodeKey kv1.1).1 (decodeKey kv2.1).2 + kv1.2 * kv2.2)
          else acc2) acc l2).retrieve_value r c
        = acc.retrieve_value r c
          + (l2.map fun kv2 =>
              if (decodeKey kv1.1).2 = (decodeKey kv2.1).1
                  ∧ (decodeKey kv1.1).1 = r ∧ (decodeKey kv2.1).2 = c
              then kv1.2 * kv2.2 else 0).sum := by
  intro l2
  induction l2 with
  | nil => intro acc r c; simp
  | cons kv2 rest ih =>
    intro acc r c
    simp only [List.foldl_cons, List.map_cons, List.sum_cons]
    rw [ih]
    have hstep : ((if (decodeKey kv1.1).2 = (decodeKey kv2.1).1 then
          acc.update_value (decodeKey kv1.1).1 (decodeKey kv2.1).2
            (acc.retrieve_value (decodeKey kv1.1).1 (decodeKey kv2.1).2 + kv1.2 * kv2.2)
        else acc)).retrieve_value r c
        = acc.retrieve_value r c
          + (if (decodeKey kv1.1).2 = (decodeKey kv2.1).1
                ∧ (decodeKey kv1.1).1 = r ∧ (decodeKey kv2.1).2 = c
             then kv1.2 * kv2.2 else 0) := by
      by_cases hg : (decodeKey kv1.1).2 = (decodeKey kv2.1).1
      · rw [if_pos hg, CompressedMatrix.retrieve_update]
        by_cases h2 : (decodeKey kv1.1).1 = r ∧ (decodeKey kv2.1).2 = c
        · rw [if_pos h2, if_pos ⟨hg, h2.1, h2.2⟩, h2.1, h2.2]
        · rw [if_neg h2, if_neg (fun hh => h2 ⟨hh.2.1, hh.2.2⟩)]
          ring
      · rw [if_neg hg, if_neg (fun hh => hg hh.1)]
        ring
    rw [hstep]
    ring

theorem mulInnerFold_dims (kv1 : List Char × Int) :
    ∀ (l2 : List (List Char × Int)) (acc : CompressedMatrix),
      (decodeKey kv1.1).1 < acc.total_rows →
      (∀ kv2 ∈ l2, (decodeKey kv2.1).2 < acc.total_cols) →
      (List.foldl (fun acc2 kv2 =>
          if (decodeKey kv1.1).2 = (decodeKey kv2.1).1 then
            acc2.update_value (decodeKey kv1.1).1 (decodeKey kv2.1).2
              (acc2.retrieve_value (decodeKey kv1.1).1 (decodeKey kv2.1).2 + kv1.2 * kv2.2)
          else acc2) acc l2).total_rows = acc.total_rows ∧
      (List.foldl (fun acc2 kv2 =>
          if (decodeKey kv1.1).2 = (decodeKey kv2.1).1 then
            acc2.update_value (decodeKey kv1.1).1 (decodeKey kv2.1).2
              (acc2.retrieve_value (decodeKey kv1.1).1 (decodeKey kv2.1).2 + kv1.2 * kv2.2)
          else acc2) acc l2).total_cols = acc.total_cols := by
  intro l2
  induction l2 with
  | nil => intro acc _ _; exact ⟨rfl, rfl⟩
  | cons kv2 rest ih =>
    intro acc hr hc
    simp only [List.foldl_cons]
    have hstep :
        ((if (decodeKey kv1.1).2 = (decodeKey kv2.1).1 then
          acc.update_value (decodeKey kv1.1).1 (decodeKey kv2.1).2
            (acc.retrieve_value (decodeKey kv1.1).1 (decodeKey kv2.1).2 + kv1.2 * kv2.2)
        else acc)).total_rows = acc.total_rows ∧
        ((if (decodeKey kv1.1).2 = (decodeKey kv2.1).1 then
          acc.update_value (decodeKey kv1.1).1 (decodeKey kv2.1).2
            (acc.retrieve_value (decodeKey kv1.1).1 (decodeKey kv2.1).2 + kv1.2 * kv2.2)
        else acc)).total_cols = acc.total_cols := by
      by_cases hg : (decodeKey kv1.1).2 = (decodeKey kv2.1).1
      · rw [if_pos hg]
        exact ⟨CompressedMatrix.update_rows_of_lt _ _ _ _ hr,
               CompressedMatrix.update_cols_of_lt _ _ _ _ (hc kv2 (List.mem_cons_self kv2 rest))⟩
      · rw [if_neg hg]
        exact ⟨rfl, rfl⟩
    obtain ⟨ihr, ihc⟩ := ih _ (by rw [hstep.1]; exact hr)
      (fun x hx => by rw [hstep.2]; exact hc x (List.mem_cons_of_mem kv2 hx))
    rw [ihr, ihc, hstep.1, hstep.2]
    exact ⟨rfl, rfl⟩

theorem mulOuterFold_get (dataB : List (List Char × Int)) :
    ∀ (l1 : List (List Char × Int)) (acc : CompressedMatrix) (r c : Int),
      (List.foldl (fun acc1 kv1 =>
          List.foldl (fun acc2 kv2 =>
            if (decodeKey kv1.1).2 = (decodeKey kv2.1).1 then
              acc2.update_value (decodeKey kv1.1).1 (decodeKey kv2.1).2
                (acc2.retrieve_value (decodeKey kv1.1).1 (decodeKey kv2.1).2 + kv1.2 * kv2.2)
            else acc2) acc1 dataB) acc l1).retrieve_value r c
        = acc.retrieve_value r c
          + (l1.map fun kv1 =>
              (dataB.map fun kv2 =>
                if (decodeKey kv1.1).2 = (decodeKey kv2.1).1
                    ∧ (decodeKey kv1.1).1 = r ∧ (decodeKey kv2.1).2 = c
                then kv1.2 * kv2.2 else 0).sum).sum := by
  intro l1
  induction l1 with
  | nil => intro acc r c; simp
  | cons kv1 rest ih =>
    intro acc r c
    simp only [List.foldl_cons, List.map_cons, List.sum_cons]
    rw [ih, mulInnerFold_get]
    ring

theorem mulOuterFold_dims (dataB : List (List Char × Int)) :
    ∀ (l1 : List (List Char × Int)) (acc : CompressedMatrix),
      (∀ kv1 ∈ l1, (decodeKey kv1.1).1 < acc.total_rows) →
      (∀ kv2 ∈ dataB, (decodeKey kv2.1).2 < acc.total_cols) →
      (List.foldl (fun acc1 kv1 =>
          List.foldl (fun acc2 kv2 =>
            if (decodeKey kv1.1).2 = (decodeKey kv2.1).1 then
              acc2.update_value (decodeKey kv1.1).1 (decodeKey kv2.1).2
                (acc2.retrieve_value (decodeKey kv1.1).1 (decodeKey kv2.1).2 + kv1.2 * kv2.2)
            else acc2) acc1 dataB) acc l1).total_rows = acc.total_rows ∧
      (List.foldl (fun acc1 kv1 =>
          List.foldl (fun acc2 kv2 =>
            if (decodeKey kv1.1).2 = (decodeKey kv2.1).1 then
              acc2.update_value (decodeKey kv1.1).1 (decodeKey kv2.1).2
                (acc2.retrieve_value (decodeKey kv1.1).1 (decodeKey kv2.1).2 + kv1.2 * kv2.2)
            else acc2) acc1 dataB) acc l1).total_cols = acc.total_cols := by
  intro l1
  induction l1 with
  | nil => intro acc _ _; exact ⟨rfl, rfl⟩
  | cons kv1 rest ih =>
    intro acc hr hc
    simp only [List.foldl_cons]
    obtain ⟨hir, hic⟩ := mulInnerFold_dims kv1 dataB acc
      (hr kv1 (List.mem_cons_self kv1 rest)) hc
    obtain ⟨ihr, ihc⟩ := ih _
      (fun x hx => by rw [hir]; exact hr x (List.mem_cons_of_mem kv1 hx))
      (fun x hx => by rw [hic]; exact hc x hx)
    rw [ihr, ihc, hir, hic]
    exact ⟨rfl, rfl⟩

theorem InBounds_parseElements :
    ∀ (ls : List (List Char)) (acc m : CompressedMatrix),
      InBounds acc → CompressedMatrix.parseElements acc ls = Except.ok m → InBounds m := by
  intro ls
  induction ls with
  | nil =>
    intro acc m h hok
    have hok' : Except.ok (ε := ImportError) acc = Except.ok m := hok
    injection hok' with he
    exact he ▸ h
  | cons line rest ih =>
    intro acc m h hok
    unfold CompressedMatrix.parseElements at hok
    split at hok
    · exact Except.noConfusion hok
    · split at hok
      · exact ih _ m (InBounds_update acc _ _ _ h) hok
      · exact Except.noConfusion hok

/-! Claim theorems -/

/-- Claim C5: `update_value(r, c, value)` sets `total_rows` to `r + 1` when
`r ≥ total_rows`, sets `total_cols` to `c + 1` when `c ≥ total_cols`, and
stores the value at key (r, c), overwriting any prior value; concretely,
`update_value(5, 3, 7)` on a matrix constructed with rows=2, cols=2 yields
rows=6, cols=4 and `retrieve_value(5, 3) = 7`. -/
theorem claim_C5_auto_growth :
    (∀ (m : CompressedMatrix) (r c v : Int),
      (m.update_value r c v).total_rows = (if r ≥ m.total_rows then r + 1 else m.total_rows) ∧
      (m.update_value r c v).total_cols = (if c ≥ m.total_cols then c + 1 else m.total_cols) ∧
      (m.update_value r c v).retrieve_value r c = v) ∧
    ((CompressedMatrix.init 2 2).update_value 5 3 7).total_rows = 6 ∧
    ((CompressedMatrix.init 2 2).update_value 5 3 7).total_cols = 4 ∧
    ((CompressedMatrix.init 2 2).update_value 5 3 7).retrieve_value 5 3 = 7 := by
  refine ⟨fun m r c v => ⟨rfl, rfl, ?_⟩, by decide, by decide, by decide⟩
  rw [CompressedMatrix.retrieve_update, if_pos ⟨rfl, rfl⟩]

/-- Claim C10: the string key encoding `f"\x7brow\x7d,\x7bcol\x7d"` is
injective on integer pairs, so an update at one coordinate pair never
changes the value read back at a different pair. -/
theorem claim_C10_key_encoding_injective :
    (∀ r1 c1 r2 c2 : Int, encodeKey r1 c1 = encodeKey r2 c2 → r1 = r2 ∧ c1 = c2) ∧
    (∀ (m : CompressedMatrix) (r1 c1 v r2 c2 : Int), (r1, c1) ≠ (r2, c2) →
      (m.update_value r1 c1 v).retrieve_value r2 c2 = m.retrieve_value r2 c2) := by
  constructor
  · exact encodeKey_inj
  · intro m r1 c1 v r2 c2 hne
    rw [CompressedMatrix.retrieve_update]
    rw [if_neg (fun hh => hne (by rw [hh.1, hh.2]))]

/-- Witness for claim C10 at the pairs (0,0) and (0,1). -/
theorem claim_C10_witness :
    ((0 : Int), (0 : Int)) ≠ ((0 : Int), (1 : Int)) ∧
    ((CompressedMatrix.init 2 2).update_value 0 0 5).retrieve_value 0 1
      = (CompressedMatrix.init 2 2).retrieve_value 0 1 :=
  ⟨by decide,
   claim_C10_key_encoding_injective.2 (CompressedMatrix.init 2 2) 0 0 5 0 1 (by decide)⟩

/-- Claim C6: `matrix_add` and `matrix_subtract` fail exactly when the declared
rows or cols differ, `matrix_multiply` fails exactly when `self.total_cols ≠
other.total_rows` (e.g. a 2×3 by 4×2 multiply fails); otherwise a result
matrix is returned. -/
theorem claim_C6_dimension_check :
    (∀ A B : CompressedMatrix,
      (exceptOk (A.matrix_add B) = true
        ↔ A.total_rows = B.total_rows ∧ A.total_cols = B.total_cols) ∧
      (exceptOk (A.matrix_subtract B) = true
        ↔ A.total_rows = B.total_rows ∧ A.total_cols = B.total_cols) ∧
      (exceptOk (A.matrix_multiply B) = true ↔ A.total_cols = B.total_rows)) ∧
    exceptOk ((CompressedMatrix.init 2 3).matrix_multiply (CompressedMatrix.init 4 2)) = false := by
  refine ⟨fun A B => ⟨?_, ?_, ?_⟩, by decide⟩
  · unfold CompressedMatrix.matrix_add
    by_cases h : A.total_rows ≠ B.total_rows ∨ A.total_cols ≠ B.total_cols
    · rw [if_pos h]
      simp only [exceptOk, Bool.false_eq_true, false_iff]
      tauto
    · rw [if_neg h]
      simp only [exceptOk, true_iff]
      tauto
  · unfold CompressedMatrix.matrix_subtract
    by_cases h : A.total_rows ≠ B.total_rows ∨ A.total_cols ≠ B.total_cols
    · rw [if_pos h]
      simp only [exceptOk, Bool.false_eq_true, false_iff]
      tauto
    · rw [if_neg h]
      simp only [exceptOk, true_iff]
      tauto
  · unfold CompressedMatrix.matrix_multiply
    by_cases h : A.total_cols ≠ B.total_rows
    · rw [if_pos h]
      simp only [exceptOk, Bool.false_eq_true, false_iff]
      tauto
    · rw [if_neg h]
      simp only [exceptOk, true_iff]
      tauto

/-- Claim C8: every key stored in `matrix_data` decodes to coordinates strictly
inside the declared dimensions, and this invariant holds for matrices built by
the constructor, preserved by `update_value`, and holds for every matrix
returned by `import_from_file`, `matrix_add`, `matrix_subtract`, and
`matrix_multiply`. -/
theorem claim_C8_bounds_invariant :
    (∀ r c : Int, InBounds (CompressedMatrix.init r c)) ∧
    (∀ (m : CompressedMatrix) (r c v : Int), InBounds m → InBounds (m.update_value r c v)) ∧
    (∀ (lines : List (List Char)) (m : CompressedMatrix),
      CompressedMatrix.import_from_file lines = Except.ok m → InBounds m) ∧
    (∀ (A B m : CompressedMatrix), A.matrix_add B = Except.ok m → InBounds m) ∧
    (∀ (A B m : CompressedMatrix), A.matrix_subtract B = Except.ok m → InBounds m) ∧
    (∀ (A B m : CompressedMatrix), A.matrix_multiply B = Except.ok m → InBounds m) := by
  refine ⟨InBounds_init, InBounds_update, ?_, ?_, ?_, ?_⟩
  · intro lines m hok
    unfold CompressedMatrix.import_from_file at hok
    split at hok
    · exact Except.noConfusion hok
    · exact Except.noConfusion hok
    · split at hok
      · exact InBounds_parseElements _ _ m (InBounds_init _ _) hok
      · exact Except.noConfusion hok
  · intro A B m hok
    unfold CompressedMatrix.matrix_add at hok
    split at hok
    · exact Except.noConfusion hok
    · injection hok with he
      refine he ▸ InBounds_foldl _ (fun a kv ha => InBounds_update a _ _ _ ha) _ _ ?_
      exact InBounds_foldl _ (fun a kv ha => InBounds_update a _ _ _ ha) _ _ (InBounds_init _ _)
  · intro A B m hok
    unfold CompressedMatrix.matrix_subtract at hok
    split at hok
    · exact Except.noConfusion hok
    · injection hok with he
      exact he ▸ InBounds_foldl _ (fun a kv ha => InBounds_update a _ _ _ ha) _ _ (InBounds_init _ _)
  · intro A B m hok
    unfold CompressedMatrix.matrix_multiply at hok
    split at hok
    · exact Except.noConfusion hok
    · injection hok with he
      refine he ▸ InBounds_foldl _ ?_ _ _ (InBounds_init _ _)
      intro a kv1 ha
      refine InBounds_foldl _ ?_ _ _ ha
      intro a2 kv2 ha2
      by_cases hg : (decodeKey kv1.1).2 = (decodeKey kv2.1).1
      · rw [if_pos hg]
        exact InBounds_update a2 _ _ _ ha2
      · rw [if_neg hg]
        exact ha2

/-- Witness for claim C8: the invariant holds for a concrete 2×2 matrix and is
preserved by a concrete `update_value`, and holds for a concrete
`matrix_add` result. -/
theorem claim_C8_witness :
    InBounds (CompressedMatrix.init 2 2) ∧
    InBounds ((CompressedMatrix.init 2 2).update_value 1 1 9) ∧
    ((CompressedMatrix.init 1 1).update_value 0 0 3).matrix_add
        ((CompressedMatrix.init 1 1).update_value 0 0 4)
      = Except.ok (CompressedMatrix.mk [(encodeKey 0 0, 7)] 1 1) ∧
    InBounds (CompressedMatrix.mk [(encodeKey 0 0, 7)] 1 1) := by
  refine ⟨by decide, claim_C8_bounds_invariant.2.1 _ 1 1 9 (by decide), rfl, ?_⟩
  exact claim_C8_bounds_invariant.2.2.2.1
    ((CompressedMatrix.init 1 1).update_value 0 0 3)
    ((CompressedMatrix.init 1 1).update_value 0 0 4)
    (CompressedMatrix.mk [(encodeKey 0 0, 7)] 1 1) rfl

theorem map_fst_map_pair (f : List Char × Int → Int) (l : List (List Char × Int)) :
    (l.map (fun kv => (kv.1, f kv))).map Prod.fst = l.map Prod.fst := by
  induction l with
  | nil => rfl
  | cons kv rest ih => simp [ih]

/-- Claim C1: for operand matrices of equal declared dimensions (with the
well-formed, distinct, in-bounds keys every reachable matrix has),
`matrix_add` returns a matrix of the same dimensions whose value at every
coordinate is the sum of the operands' values, and whose stored keys all come
from one of the two operands. -/
theorem claim_C1_addition (A B : CompressedMatrix)
    (hrows : A.total_rows = B.total_rows) (hcols : A.total_cols = B.total_cols)
    (hcanA : CanonicalKeys A) (hndA : NodupKeys A) (hbA : InBounds A)
    (hcanB : CanonicalKeys B) (hndB : NodupKeys B) (hbB : InBounds B) :
    ∃ R : CompressedMatrix, A.matrix_add B = Except.ok R ∧
      R.total_rows = A.total_rows ∧ R.total_cols = A.total_cols ∧
      (∀ r c : Int, R.retrieve_value r c = A.retrieve_value r c + B.retrieve_value r c) ∧
      (∀ k ∈ R.matrix_data.map Prod.fst,
        k ∈ A.matrix_data.map Prod.fst ∨ k ∈ B.matrix_data.map Prod.fst) := by
  have hcond : ¬(A.total_rows ≠ B.total_rows ∨ A.total_cols ≠ B.total_cols) := by tauto
  have hphase1 : List.foldl (fun a kv => a.update_value (decodeKey kv.1).1 (decodeKey kv.1).2 kv.2)
      (CompressedMatrix.init A.total_rows A.total_cols) A.matrix_data
      = ⟨A.matrix_data, A.total_rows, A.total_cols⟩ := by
    rw [copyFold_eq A.matrix_data (CompressedMatrix.init A.total_rows A.total_cols)
      hcanA hndA (fun kv _ => by simp [CompressedMatrix.init]) (fun kv hkv => hbA kv hkv)]
    rfl
  have hbnd1 : ∀ kv ∈ B.matrix_data,
      (decodeKey kv.1).1 < (⟨A.matrix_data, A.total_rows, A.total_cols⟩ : CompressedMatrix).total_rows
      ∧ (decodeKey kv.1).2 < (⟨A.matrix_data, A.total_rows, A.total_cols⟩ : CompressedMatrix).total_cols := by
    intro kv hkv
    obtain ⟨h1, h2⟩ := hbB kv hkv
    constructor
    · show (decodeKey kv.1).1 < A.total_rows
      omega
    · show (decodeKey kv.1).2 < A.total_cols
      omega
  have hadd : A.matrix_add B = Except.ok
      (List.foldl (fun a kv => a.update_value (decodeKey kv.1).1 (decodeKey kv.1).2
          (a.retrieve_value (decodeKey kv.1).1 (decodeKey kv.1).2 + kv.2))
        (⟨A.matrix_data, A.total_rows, A.total_cols⟩ : CompressedMatrix) B.matrix_data) := by
    unfold CompressedMatrix.matrix_add
    rw [if_neg hcond, hphase1]
  refine ⟨_, hadd, ?_, ?_, ?_, ?_⟩
  · exact (addFold_dims B.matrix_data _ hbnd1).1
  · exact (addFold_dims B.matrix_data _ hbnd1).2
  · intro r c
    rw [addFold_get B.matrix_data _ r c hcanB]
    rw [sum_match_eq_dictGet (encodeKey r c) B.matrix_data hndB]
    rfl
  · intro k hk
    exact addFold_keys B.matrix_data _ hcanB k hk

/-- Concrete 1x2 left operand for the addition witness. -/
def addLeft : CompressedMatrix :=
  ((CompressedMatrix.init 1 2).update_value 0 0 2).update_value 0 1 3

/-- Concrete right operand for the addition witness. -/
def addRight : CompressedMatrix :=
  ((CompressedMatrix.init 1 2).update_value 0 1 10).update_value 0 0 (-5)

/-- Witness for claim C1 on two concrete 1×2 matrices. -/
theorem claim_C1_witness :
    (addLeft.total_rows = addRight.total_rows ∧ addLeft.total_cols = addRight.total_cols ∧
     CanonicalKeys addLeft ∧ NodupKeys addLeft ∧ InBounds addLeft ∧
     CanonicalKeys addRight ∧ NodupKeys addRight ∧ InBounds addRight) ∧
    ∃ R : CompressedMatrix, addLeft.matrix_add addRight = Except.ok R ∧
      R.total_rows = addLeft.total_rows ∧ R.total_cols = addLeft.total_cols ∧
      (∀ r c : Int, R.retrieve_value r c
        = addLeft.retrieve_value r c + addRight.retrieve_value r c) ∧
      (∀ k ∈ R.matrix_data.map Prod.fst,
        k ∈ addLeft.matrix_data.map Prod.fst ∨ k ∈ addRight.matrix_data.map Prod.fst) :=
  ⟨⟨by decide, by decide, by decide, by decide, by decide, by decide, by decide, by decide⟩,
   claim_C1_addition addLeft addRight (by decide) (by decide) (by decide) (by decide)
     (by decide) (by decide) (by decide) (by decide)⟩

/-- Claim C3: for operands of equal declared dimensions, `matrix_subtract`
writes exactly one entry per stored entry of the second operand, with value
`self.get(r,c) - v`; coordinates stored only in the first operand are never
written, so they read back 0 — concretely, subtracting an empty 2×2 matrix
from one holding 9 at (1,1) yields a matrix whose (1,1) entry reads 0. -/
theorem claim_C3_subtract_asymmetry :
    (∀ A B : CompressedMatrix,
      A.total_rows = B.total_rows → A.total_cols = B.total_cols →
      CanonicalKeys B → NodupKeys B → InBounds B →
      ∃ D : CompressedMatrix, A.matrix_subtract B = Except.ok D ∧
        D.total_rows = A.total_rows ∧ D.total_cols = A.total_cols ∧
        D.matrix_data = B.matrix_data.map (fun kv =>
          (kv.1, A.retrieve_value (decodeKey kv.1).1 (decodeKey kv.1).2 - kv.2)) ∧
        (∀ r c : Int, encodeKey r c ∉ B.matrix_data.map Prod.fst → D.retrieve_value r c = 0)) ∧
    ((CompressedMatrix.init 2 2).update_value 1 1 9).matrix_subtract (CompressedMatrix.init 2 2)
      = Except.ok (CompressedMatrix.init 2 2) ∧
    (okValue (((CompressedMatrix.init 2 2).update_value 1 1 9).matrix_subtract
        (CompressedMatrix.init 2 2))).retrieve_value 1 1 = 0 := by
  refine ⟨?_, rfl, rfl⟩
  intro A B hrows hcols hcanB hndB hbB
  have hcond : ¬(A.total_rows ≠ B.total_rows ∨ A.total_cols ≠ B.total_cols) := by tauto
  have hbnd : ∀ kv ∈ B.matrix_data,
      (decodeKey kv.1).1 < (CompressedMatrix.init A.total_rows A.total_cols).total_rows
      ∧ (decodeKey kv.1).2 < (CompressedMatrix.init A.total_rows A.total_cols).total_cols := by
    intro kv hkv
    obtain ⟨h1, h2⟩ := hbB kv hkv
    constructor
    · show (decodeKey kv.1).1 < A.total_rows
      omega
    · show (decodeKey kv.1).2 < A.total_cols
      omega
  have hfold := subFold_eq A B.matrix_data (CompressedMatrix.init A.total_rows A.total_cols)
      hcanB hndB (fun kv _ => by simp [CompressedMatrix.init]) hbnd
  have hsub : A.matrix_subtract B = Except.ok
      (⟨B.matrix_data.map (fun kv =>
          (kv.1, A.retrieve_value (decodeKey kv.1).1 (decodeKey kv.1).2 - kv.2)),
        A.total_rows, A.total_cols⟩ : CompressedMatrix) := by
    unfold CompressedMatrix.matrix_subtract
    rw [if_neg hcond, hfold]
    rfl
  refine ⟨_, hsub, rfl, rfl, rfl, ?_⟩
  intro r c hnot
  apply dictGet_not_mem
  intro hmem
  rw [map_fst_map_pair] at hmem
  exact hnot hmem

/-- Concrete left operand for the subtraction witness: 9 stored at (1,1). -/
def subLeft : CompressedMatrix := (CompressedMatrix.init 2 2).update_value 1 1 9

/-- Concrete right operand for the subtraction witness: 4 stored at (0,0). -/
def subRight : CompressedMatrix := (CompressedMatrix.init 2 2).update_value 0 0 4

/-- Witness for claim C3 on concrete 2×2 matrices. -/
theorem claim_C3_witness :
    (subLeft.total_rows = subRight.total_rows ∧ subLeft.total_cols = subRight.total_cols ∧
     CanonicalKeys subRight ∧ NodupKeys subRight ∧ InBounds subRight) ∧
    ∃ D : CompressedMatrix, subLeft.matrix_subtract subRight = Except.ok D ∧
      D.total_rows = subLeft.total_rows ∧ D.total_cols = subLeft.total_cols ∧
      D.matrix_data = subRight.matrix_data.map (fun kv =>
        (kv.1, subLeft.retrieve_value (decodeKey kv.1).1 (decodeKey kv.1).2 - kv.2)) ∧
      (∀ r c : Int, encodeKey r c ∉ subRight.matrix_data.map Prod.fst →
        D.retrieve_value r c = 0) :=
  ⟨⟨by decide, by decide, by decide, by decide, by decide⟩,
   claim_C3_subtract_asymmetry.1 subLeft subRight (by decide) (by decide) (by decide)
     (by decide) (by decide)⟩

/-- Concrete 1×2 left operand of the spec's multiplication example. -/
def mulLeft : CompressedMatrix :=
  ((CompressedMatrix.init 1 2).update_value 0 0 2).update_value 0 1 3

/-- Concrete 2×1 right operand of the spec's multiplication example. -/
def mulRight : CompressedMatrix :=
  ((CompressedMatrix.init 2 1).update_value 0 0 4).update_value 1 0 5

/-- Claim C2: for inner dimensions that agree (and in-bounds stored keys),
`matrix_multiply` returns a matrix of dimensions (self.rows, other.cols) whose
value at (r, c) is the sum of `v1 * v2` over all stored entry pairs with the
first entry in row r, the second in column c, and matching contraction index;
concretely, the spec's 1×2 by 2×1 example yields a 1×1 matrix with entry 23. -/
theorem claim_C2_multiplication :
    (∀ A B : CompressedMatrix,
      A.total_cols = B.total_rows → InBounds A → InBounds B →
      ∃ R : CompressedMatrix, A.matrix_multiply B = Except.ok R ∧
        R.total_rows = A.total_rows ∧ R.total_cols = B.total_cols ∧
        (∀ r c : Int, R.retrieve_value r c =
          (A.matrix_data.map fun kv1 =>
            (B.matrix_data.map fun kv2 =>
              if (decodeKey kv1.1).2 = (decodeKey kv2.1).1
                  ∧ (decodeKey kv1.1).1 = r ∧ (decodeKey kv2.1).2 = c
              then kv1.2 * kv2.2 else 0).sum).sum)) ∧
    mulLeft.matrix_multiply mulRight
      = Except.ok (CompressedMatrix.mk [(encodeKey 0 0, 23)] 1 1) ∧
    (okValue (mulLeft.matrix_multiply mulRight)).retrieve_value 0 0 = 23 ∧
    (okValue (mulLeft.matrix_multiply mulRight)).total_rows = 1 ∧
    (okValue (mulLeft.matrix_multiply mulRight)).total_cols = 1 := by
  refine ⟨?_, rfl, rfl, rfl, rfl⟩
  intro A B hdim hbA hbB
  have hcond : ¬(A.total_cols ≠ B.total_rows) := by tauto
  have hmul : A.matrix_multiply B = Except.ok
      (List.foldl (fun acc1 kv1 =>
          List.foldl (fun acc2 kv2 =>
            if (decodeKey kv1.1).2 = (decodeKey kv2.1).1 then
              acc2.update_value (decodeKey kv1.1).1 (decodeKey kv2.1).2
                (acc2.retrieve_value (decodeKey kv1.1).1 (decodeKey kv2.1).2 + kv1.2 * kv2.2)
            else acc2) acc1 B.matrix_data)
        (CompressedMatrix.init A.total_rows B.total_cols) A.matrix_data) := by
    unfold CompressedMatrix.matrix_multiply
    rw [if_neg hcond]
  have hr : ∀ kv1 ∈ A.matrix_data,
      (decodeKey kv1.1).1 < (CompressedMatrix.init A.total_rows B.total_cols).total_rows :=
    fun kv1 hkv1 => (hbA kv1 hkv1).1
  have hc : ∀ kv2 ∈ B.matrix_data,
      (decodeKey kv2.1).2 < (CompressedMatrix.init A.total_rows B.total_cols).total_cols :=
    fun kv2 hkv2 => (hbB kv2 hkv2).2
  refine ⟨_, hmul, ?_, ?_, ?_⟩
  · exact (mulOuterFold_dims B.matrix_data A.matrix_data _ hr hc).1
  · exact (mulOuterFold_dims B.matrix_data A.matrix_data _ hr hc).2
  · intro r c
    rw [mulOuterFold_get B.matrix_data A.matrix_data _ r c]
    show (0 : Int) + _ = _
    rw [zero_add]

/-- Witness for claim C2 on the spec's concrete example operands. -/
theorem claim_C2_witness :
    (mulLeft.total_cols = mulRight.total_rows ∧ InBounds mulLeft ∧ InBounds mulRight) ∧
    ∃ R : CompressedMatrix, mulLeft.matrix_multiply mulRight = Except.ok R ∧
      R.total_rows = mulLeft.total_rows ∧ R.total_cols = mulRight.total_cols ∧
      (∀ r c : Int, R.retrieve_value r c =
        (mulLeft.matrix_data.map fun kv1 =>
          (mulRight.matrix_data.map fun kv2 =>
            if (decodeKey kv1.1).2 = (decodeKey kv2.1).1
                ∧ (decodeKey kv1.1).1 = r ∧ (decodeKey kv2.1).2 = c
            then kv1.2 * kv2.2 else 0).sum).sum) :=
  ⟨⟨by decide, by decide, by decide⟩,
   claim_C2_multiplication.1 mulLeft mulRight (by decide) (by decide) (by decide)⟩

/-! Round-trip: importing the serialized output -/

theorem parseHeaderInt_rows (n : Int) :
    parseHeaderInt (CompressedMatrix.rowsHeaderChars ++ intRepr n) = some n := by
  have h : CompressedMatrix.rowsHeaderChars ++ intRepr n
      = ['r', 'o', 'w', 's'] ++ '=' :: intRepr n := rfl
  rw [h]
  unfold parseHeaderInt
  rw [splitAll_append_sep '=' ['r', 'o', 'w', 's'] (intRepr n) (by decide)]
  rw [splitAll_no_sep '=' (intRepr n) (intRepr_no_eq_sign n)]
  show pyInt (intRepr n) = some n
  exact pyInt_intRepr n

theorem parseHeaderInt_cols (n : Int) :
    parseHeaderInt (CompressedMatrix.colsHeaderChars ++ intRepr n) = some n := by
  have h : CompressedMatrix.colsHeaderChars ++ intRepr n
      = ['c', 'o', 'l', 's'] ++ '=' :: intRepr n := rfl
  rw [h]
  unfold parseHeaderInt
  rw [splitAll_append_sep '=' ['c', 'o', 'l', 's'] (intRepr n) (by decide)]
  rw [splitAll_no_sep '=' (intRepr n) (intRepr_no_eq_sign n)]
  show pyInt (intRepr n) = some n
  exact pyInt_intRepr n

theorem parseElements_cons (m : CompressedMatrix) (element_line : List Char)
    (rest : List (List Char)) :
    CompressedMatrix.parseElements m (element_line :: rest)
      = if element_line.head? ≠ some '(' ∨ element_line.getLast? ≠ some ')' then
          Except.error (ImportError.invalidElementFormat element_line)
        else
          match pyInt (((splitAll ',' ((element_line.drop 1).dropLast))).getD 0 []),
                pyInt (((splitAll ',' ((element_line.drop 1).dropLast))).getD 1 []),
                pyInt (((splitAll ',' ((element_line.drop 1).dropLast))).getD 2 []) with
          | some row_index, some col_index, some value =>
            CompressedMatrix.parseElements (m.update_value row_index col_index value) rest
          | _, _, _ => Except.error (ImportError.invalidElementFields element_line) := rfl

theorem parseElements_step (acc : CompressedMatrix) (kv : List Char × Int)
    (rest : List (List Char)) (hck : canonicalKey kv.1) :
    CompressedMatrix.parseElements acc (CompressedMatrix.elementLine kv :: rest)
      = CompressedMatrix.parseElements
          (acc.update_value (decodeKey kv.1).1 (decodeKey kv.1).2 kv.2) rest := by
  have hsplitkey : splitOnComma kv.1
      = (intRepr (decodeKey kv.1).1, intRepr (decodeKey kv.1).2) := by
    conv_lhs => rw [← hck]
    exact splitOnComma_append _ _ (intRepr_no_comma _)
  have hsp1 : (splitOnComma kv.1).1 = intRepr (decodeKey kv.1).1 := by rw [hsplitkey]
  have hsp2 : (splitOnComma kv.1).2 = intRepr (decodeKey kv.1).2 := by rw [hsplitkey]
  have hcons : CompressedMatrix.elementLine kv
      = '(' :: (((intRepr (decodeKey kv.1).1 ++ ',' :: ' ' :: intRepr (decodeKey kv.1).2)
          ++ ',' :: ' ' :: intRepr kv.2) ++ [')']) := by
    unfold CompressedMatrix.elementLine
    rw [hsp1, hsp2]
    simp only [List.cons_append]
  have hhead : (CompressedMatrix.elementLine kv).head? = some '(' := by
    rw [hcons]
    rfl
  have hlast : (CompressedMatrix.elementLine kv).getLast? = some ')' := by
    unfold CompressedMatrix.elementLine
    exact List.getLast?_concat _
  have hd1 : (CompressedMatrix.elementLine kv).drop 1
      = ((intRepr (decodeKey kv.1).1 ++ ',' :: ' ' :: intRepr (decodeKey kv.1).2)
          ++ ',' :: ' ' :: intRepr kv.2) ++ [')'] := by
    rw [hcons]
    rfl
  have hinner : ((CompressedMatrix.elementLine kv).drop 1).dropLast
      = (intRepr (decodeKey kv.1).1 ++ ',' :: ' ' :: intRepr (decodeKey kv.1).2)
          ++ ',' :: ' ' :: intRepr kv.2 := by
    rw [hd1]
    exact List.dropLast_concat
  have hsplitline : splitAll ',' ((intRepr (decodeKey kv.1).1
        ++ ',' :: ' ' :: intRepr (decodeKey kv.1).2) ++ ',' :: ' ' :: intRepr kv.2)
      = [intRepr (decodeKey kv.1).1, ' ' :: intRepr (decodeKey kv.1).2,
         ' ' :: intRepr kv.2] := by
    rw [List.append_assoc]
    rw [show (',' :: ' ' :: intRepr (decodeKey kv.1).2) ++ ',' :: ' ' :: intRepr kv.2
        = ',' :: ((' ' :: intRepr (decodeKey kv.1).2) ++ ',' :: ' ' :: intRepr kv.2) from rfl]
    rw [splitAll_append_sep ',' _ _ (intRepr_no_comma _)]
    rw [splitAll_append_sep ',' (' ' :: intRepr (decodeKey kv.1).2) _ ?hnc1]
    case hnc1 =>
      intro x hx
      rcases List.mem_cons.mp hx with h | h
      · subst h; decide
      · exact intRepr_no_comma _ x h
    rw [splitAll_no_sep ',' (' ' :: intRepr kv.2) ?hnc2]
    case hnc2 =>
      intro x hx
      rcases List.mem_cons.mp hx with h | h
      · subst h; decide
      · exact intRepr_no_comma _ x h
  have hnotbad : ¬((CompressedMatrix.elementLine kv).head? ≠ some '('
      ∨ (CompressedMatrix.elementLine kv).getLast? ≠ some ')') := by
    intro h
    rcases h with h | h
    · exact h hhead
    · exact h hlast
  rw [parseElements_cons, if_neg hnotbad, hinner, hsplitline]
  rw [show ([intRepr (decodeKey kv.1).1, ' ' :: intRepr (decodeKey kv.1).2,
      ' ' :: intRepr kv.2].getD 0 []) = intRepr (decodeKey kv.1).1 from rfl]
  rw [show ([intRepr (decodeKey kv.1).1, ' ' :: intRepr (decodeKey kv.1).2,
      ' ' :: intRepr kv.2].getD 1 []) = ' ' :: intRepr (decodeKey kv.1).2 from rfl]
  rw [show ([intRepr (decodeKey kv.1).1, ' ' :: intRepr (decodeKey kv.1).2,
      ' ' :: intRepr kv.2].getD 2 []) = ' ' :: intRepr kv.2 from rfl]
  rw [pyInt_intRepr, pyInt_space_intRepr, pyInt_space_intRepr]

theorem parseElements_strLines :
    ∀ (l : List (List Char × Int)) (acc : CompressedMatrix),
      (∀ kv ∈ l, canonicalKey kv.1) →
      CompressedMatrix.parseElements acc (l.map CompressedMatrix.elementLine)
        = Except.ok (List.foldl (fun a kv =>
            a.update_value (decodeKey kv.1).1 (decodeKey kv.1).2 kv.2) acc l) := by
  intro l
  induction l with
  | nil => intro acc _; rfl
  | cons kv rest ih =>
    intro acc hcan
    rw [List.map_cons, parseElements_step acc kv _ (hcan kv (List.mem_cons_self kv rest))]
    rw [ih _ (fun x hx => hcan x (List.mem_cons_of_mem kv hx))]
    rfl

theorem import_cons_cons (l0 l1 : List Char) (rest : List (List Char)) :
    CompressedMatrix.import_from_file (l0 :: l1 :: rest)
      = match parseHeaderInt l0, parseHeaderInt l1 with
        | some rows_count, some cols_count =>
          CompressedMatrix.parseElements
            (CompressedMatrix.init rows_count cols_count) rest
        | _, _ => Except.error ImportError.invalidDimensions := rfl

/-- Claim C4: round-trip — importing the serialized lines of a matrix (with
the well-formed, distinct, in-bounds keys every matrix built through
`update_value` has) reconstructs that matrix exactly: equal dimensions and
equal stored data, hence equal `retrieve_value` at every key. -/
theorem claim_C4_roundtrip (M : CompressedMatrix)
    (hcan : CanonicalKeys M) (hnd : NodupKeys M) (hb : InBounds M) :
    CompressedMatrix.import_from_file (CompressedMatrix.strLines M) = Except.ok M := by
  have hstr : CompressedMatrix.strLines M
      = (CompressedMatrix.rowsHeaderChars ++ intRepr M.total_rows)
        :: (CompressedMatrix.colsHeaderChars ++ intRepr M.total_cols)
        :: M.matrix_data.map CompressedMatrix.elementLine := rfl
  rw [hstr, import_cons_cons, parseHeaderInt_rows, parseHeaderInt_cols]
  show CompressedMatrix.parseElements (CompressedMatrix.init M.total_rows M.total_cols)
      (M.matrix_data.map CompressedMatrix.elementLine) = Except.ok M
  rw [parseElements_strLines M.matrix_data _ hcan]
  rw [copyFold_eq M.matrix_data (CompressedMatrix.init M.total_rows M.total_cols) hcan hnd
      (fun kv _ => by simp [CompressedMatrix.init]) (fun kv hkv => hb kv hkv)]
  rfl

/-- Concrete matrix for the round-trip witness. -/
def roundTripM : CompressedMatrix :=
  ((CompressedMatrix.init 2 3).update_value 1 2 (-7)).update_value 0 0 5

/-- Witness for claim C4 on a concrete matrix with a negative entry. -/
theorem claim_C4_witness :
    (CanonicalKeys roundTripM ∧ NodupKeys roundTripM ∧ InBounds roundTripM) ∧
    CompressedMatrix.import_from_file (CompressedMatrix.strLines roundTripM)
      = Except.ok roundTripM :=
  ⟨⟨by decide, by decide, by decide⟩,
   claim_C4_roundtrip roundTripM (by decide) (by decide) (by decide)⟩

/-! Claim C7: element-line format errors -/

/-- Modelled from the spec: an integer literal `<int>` — an optional minus
sign followed by a non-empty run of decimal digits. -/
def isIntLiteral (l : List Char) : Bool :=
  match l with
  | [] => false
  | c :: cs =>
    if c = '-' then !cs.isEmpty && cs.all isDigitChar
    else (c :: cs).all isDigitChar

/-- Modelled from the spec: the exact element-line shape
`(<int>, <int>, <int>)` — a leading '(' and trailing ')', and an interior
that splits on commas into exactly three fields, the second and third each
preceded by one space. -/
def specExactShape (l : List Char) : Bool :=
  (l.head? == some '(') && (l.getLast? == some ')') &&
    (match splitAll ',' ((l.drop 1).dropLast) with
     | [p0, p1, p2] =>
       isIntLiteral p0
         && (match p1 with | ' ' :: q1 => isIntLiteral q1 | _ => false)
         && (match p2 with | ' ' :: q2 => isIntLiteral q2 | _ => false)
     | _ => false)

/-- The four-field element line `(1, 2, 3, 4)`. -/
def fourFieldLine : List Char :=
  ['(', '1', ',', ' ', '2', ',', ' ', '3', ',', ' ', '4', ')']

/-- Counterexample to claim C7: the element line `(1, 2, 3, 4)` does not have
the exact shape `(<int>, <int>, <int>)`, yet `import_from_file` accepts it —
the fields beyond the third are silently ignored and a matrix instance is
produced (whose dimensions even grow to 2×3 via `update_value(1, 2, 3)`). -/
theorem claim_C7_counterexample :
    specExactShape fourFieldLine = false ∧
    CompressedMatrix.import_from_file
        [CompressedMatrix.rowsHeaderChars ++ intRepr 2,
         CompressedMatrix.colsHeaderChars ++ intRepr 2, fourFieldLine]
      = Except.ok (CompressedMatrix.mk [(encodeKey 1 2, 3)] 2 3) ∧
    exceptOk (CompressedMatrix.import_from_file
        [CompressedMatrix.rowsHeaderChars ++ intRepr 2,
         CompressedMatrix.colsHeaderChars ++ intRepr 2, fourFieldLine]) = true :=
  ⟨by decide, rfl, rfl⟩

/-- Claim C7 (amended): import fails with the too-few-lines `FormatError` when
the filtered input has fewer than two lines; an element line missing the
leading '(' or the trailing ')' fails with a `FormatError` carrying that
line; an element line whose first three comma-separated fields do not all
parse as integers fails with a `FormatError` carrying that line.  (Comma
fields beyond the third are ignored, so a line need not have the exact
three-field shape to be accepted — see the counterexample.) -/
theorem claim_C7_amended :
    (∀ lines : List (List Char), lines.length < 2 →
      CompressedMatrix.import_from_file lines = Except.error ImportError.tooFewLines) ∧
    (∀ (m : CompressedMatrix) (line : List Char) (rest : List (List Char)),
      (line.head? ≠ some '(' ∨ line.getLast? ≠ some ')') →
      CompressedMatrix.parseElements m (line :: rest)
        = Except.error (ImportError.invalidElementFormat line)) ∧
    (∀ (m : CompressedMatrix) (line : List Char) (rest : List (List Char)),
      line.head? = some '(' → line.getLast? = some ')' →
      (pyInt ((splitAll ',' ((line.drop 1).dropLast)).getD 0 []) = none ∨
       pyInt ((splitAll ',' ((line.drop 1).dropLast)).getD 1 []) = none ∨
       pyInt ((splitAll ',' ((line.drop 1).dropLast)).getD 2 []) = none) →
      CompressedMatrix.parseElements m (line :: rest)
        = Except.error (ImportError.invalidElementFields line)) := by
  refine ⟨?_, ?_, ?_⟩
  · intro lines hlen
    match lines with
    | [] => rfl
    | [_] => rfl
    | a :: b :: rest =>
      exfalso
      simp only [List.length_cons] at hlen
      omega
  · intro m line rest h
    rw [parseElements_cons, if_pos h]
  · intro m line rest hh hl hnone
    rw [parseElements_cons,
        if_neg (fun hc => hc.elim (fun hc' => hc' hh) (fun hc' => hc' hl))]
    cases hA : pyInt ((splitAll ',' ((line.drop 1).dropLast)).getD 0 []) with
    | none => rfl
    | some r =>
      cases hB : pyInt ((splitAll ',' ((line.drop 1).dropLast)).getD 1 []) with
      | none => rfl
      | some c =>
        cases hC : pyInt ((splitAll ',' ((line.drop 1).dropLast)).getD 2 []) with
        | none => rfl
        | some v =>
          rcases hnone with h0 | h0 | h0
          · rw [hA] at h0; exact Option.noConfusion h0
          · rw [hB] at h0; exact Option.noConfusion h0
          · rw [hC] at h0; exact Option.noConfusion h0

/-- Witness for claim C7 (amended) on concrete malformed inputs. -/
theorem claim_C7_witness :
    ([['x']] : List (List Char)).length < 2 ∧
    CompressedMatrix.import_from_file [['x']] = Except.error ImportError.tooFewLines ∧
    (((['1', ')'] : List Char).head? ≠ some '(' ∨ (['1', ')'] : List Char).getLast? ≠ some ')')) ∧
    CompressedMatrix.parseElements (CompressedMatrix.init 2 2) [['1', ')']]
      = Except.error (ImportError.invalidElementFormat ['1', ')']) :=
  ⟨by decide, claim_C7_amended.1 [['x']] (by decide), by decide,
   claim_C7_amended.2.1 (CompressedMatrix.init 2 2) ['1', ')'] [] (by decide)⟩
